import Mathlib

/-!
Verification of the keyword-coverage analyzer, the PDF extraction error
path and the prompt gateway of `src/ATS_Resume.py`, as a shallow
embedding in Lean.

Strings are modelled by `String` (lists of characters); Python character
classes (`\w` of `re`, `str.isspace`, `str.lower`) are modelled on the
ASCII range, which covers every literal appearing in the program and in
the specification examples.
-/

/-- Python regex `\w`: a word character (alphanumeric or underscore). -/
def isWordChar (c : Char) : Bool := c.isAlphanum || c = '_'

/-- Python `str.lower()`: lowercase every character. -/
def lowerStr (s : String) : String := String.mk (s.toList.map Char.toLower)

/-- Maximal runs of characters satisfying `p`, with an accumulator holding
the (reversed) current run.  `tokensBy p l []` returns, in order, each
maximal contiguous block of characters of `l` satisfying `p`.  This is the
common engine of Python `re.findall(r"\b\w+\b", s)` (with `p = isWordChar`)
and Python `str.split()` (with `p = not whitespace`). -/
def tokensBy (p : Char → Bool) : List Char → List Char → List (List Char)
  | [], cur => if cur.isEmpty then [] else [cur.reverse]
  | c :: cs, cur =>
    if p c then tokensBy p cs (c :: cur)
    else if cur.isEmpty then tokensBy p cs []
    else cur.reverse :: tokensBy p cs []

/-- Line 159, `re.findall(r"\b\w+\b", s)`: the maximal runs of word
characters of `s`, in order. -/
def findWords (s : String) : List String :=
  (tokensBy isWordChar s.toList []).map String.mk

/-- Python `str.split()` with no argument: maximal runs of
non-whitespace characters. -/
def pySplit (s : String) : List String :=
  (tokensBy (fun c => !c.isWhitespace) s.toList []).map String.mk

/-- Lines 159-161: lowercase the job description, extract word tokens,
keep those of length strictly greater than 3, and deduplicate
(`list(set(...))`; the embedding fixes one concrete order for the
implementation-defined set order). -/
def jd_keywords (job_desc : String) : List String :=
  (((findWords (lowerStr job_desc)).filter (fun w => decide (3 < w.length)))).dedup

/-- Line 163, `resume_text.lower().split()`. -/
def resume_words (resume_text : String) : List String :=
  pySplit (lowerStr resume_text)

/-- Lines 158-167, `keyword_coverage(job_desc, resume_text)`: the pair
`(matched, missing)` of filters of the deduplicated keyword list by
membership (resp. non-membership) in the resume word list. -/
def keyword_coverage (job_desc resume_text : String) : List String × List String :=
  let jd := jd_keywords job_desc
  let rw := resume_words resume_text
  (jd.filter (fun kw => decide (kw ∈ rw)), jd.filter (fun kw => decide (kw ∉ rw)))

/-- Specification-side rendering of "maximal runs of word characters":
at a character satisfying `p`, the run is that character together with
the longest following block satisfying `p`, and scanning resumes after
the run; other characters are skipped. -/
def maxRuns (p : Char → Bool) : List Char → List (List Char)
  | [] => []
  | c :: cs =>
    if p c then (c :: cs.takeWhile p) :: maxRuns p (cs.dropWhile p)
    else maxRuns p cs
termination_by l => l.length
decreasing_by
  · exact Nat.lt_succ_of_le (List.Sublist.length_le (List.dropWhile_sublist p))
  · exact Nat.lt_succ_of_le (Nat.le_refl _)

/-- Specification-side statement that `w` occurs in `s` as a maximal
contiguous run of characters satisfying `p`: `w` is nonempty, all of `w`
satisfies `p`, and `w` occurs in `s` with no `p`-character immediately
before or after it. -/
def IsMaxRun (p : Char → Bool) (s w : List Char) : Prop :=
  w ≠ [] ∧ (∀ c ∈ w, p c = true) ∧
    ∃ pre suf, s = pre ++ w ++ suf ∧
      (∀ d, pre.getLast? = some d → p d = false) ∧
      (∀ d, suf.head? = some d → p d = false)

lemma tokensBy_eq_maxRuns_aux (p : Char → Bool) (l cur : List Char)
    (hcur : ∀ c ∈ cur, p c = true) :
    tokensBy p l cur =
      if cur.isEmpty then maxRuns p l
      else (cur.reverse ++ l.takeWhile p) :: maxRuns p (l.dropWhile p) := by
  induction l generalizing cur with
  | nil =>
    cases cur with
    | nil => simp [tokensBy, maxRuns]
    | cons d ds => simp [tokensBy, maxRuns]
  | cons c cs ih =>
    by_cases hp : p c = true
    · have hstep : tokensBy p (c :: cs) cur = tokensBy p cs (c :: cur) := by
        simp [tokensBy, hp]
      have hcur' : ∀ x ∈ c :: cur, p x = true := by
        intro x hx
        rcases List.mem_cons.mp hx with hx | hx
        · exact hx ▸ hp
        · exact hcur x hx
      rw [hstep, ih (c :: cur) hcur']
      cases cur with
      | nil => simp [maxRuns, hp]
      | cons d ds =>
        simp [maxRuns, hp, List.takeWhile_cons, List.dropWhile_cons]
    · have hp' : p c = false := by simp [hp]
      cases cur with
      | nil =>
        have hstep : tokensBy p (c :: cs) [] = tokensBy p cs [] := by
          simp [tokensBy, hp']
        rw [hstep, ih [] (by intro x hx; cases hx)]
        simp [maxRuns, hp']
      | cons d ds =>
        have hstep : tokensBy p (c :: cs) (d :: ds) =
            (d :: ds).reverse :: tokensBy p cs [] := by
          simp [tokensBy, hp']
        rw [hstep, ih [] (by intro x hx; cases hx)]
        simp [maxRuns, hp', List.takeWhile_cons, List.dropWhile_cons]

/-- The accumulator tokenizer computes exactly the maximal `p`-runs. -/
lemma tokensBy_eq_maxRuns (p : Char → Bool) (l : List Char) :
    tokensBy p l [] = maxRuns p l := by
  rw [tokensBy_eq_maxRuns_aux p l [] (by intro x hx; cases hx)]
  rfl

lemma maxRuns_nil (p : Char → Bool) : maxRuns p [] = [] := by
  simp [maxRuns]

lemma maxRuns_cons (p : Char → Bool) (c : Char) (cs : List Char) :
    maxRuns p (c :: cs) =
      if p c then (c :: cs.takeWhile p) :: maxRuns p (cs.dropWhile p)
      else maxRuns p cs := by
  rw [maxRuns]

lemma head?_dropWhile_false (p : Char → Bool) :
    ∀ (l : List Char) (d : Char), (l.dropWhile p).head? = some d → p d = false := by
  intro l
  induction l with
  | nil => intro d h; simp at h
  | cons c cs ih =>
    intro d h
    rw [List.dropWhile_cons] at h
    by_cases hp : p c = true
    · rw [if_pos hp] at h
      exact ih d h
    · rw [if_neg hp] at h
      simp only [List.head?_cons, Option.some.injEq] at h
      subst h
      simp [hp]

lemma getLast?_append_right {α : Type} (l l' : List α) (h : l' ≠ []) :
    (l ++ l').getLast? = l'.getLast? := by
  cases hl : l'.getLast? with
  | none => exact absurd (List.getLast?_eq_none_iff.mp hl) h
  | some x => rw [List.getLast?_append, hl]; rfl

lemma exists_getLast?_of_ne_nil {α : Type} {l : List α} (h : l ≠ []) :
    ∃ x, l.getLast? = some x := by
  cases hl : l.getLast? with
  | none => exact absurd (List.getLast?_eq_none_iff.mp hl) h
  | some x => exact ⟨x, rfl⟩

lemma mem_of_getLast?_eq {α : Type} {l : List α} {a : α} (h : l.getLast? = some a) :
    a ∈ l := by
  rw [← List.head?_reverse] at h
  have : a ∈ l.reverse := by
    cases hl : l.reverse with
    | nil => rw [hl] at h; cases h
    | cons b t =>
      rw [hl] at h
      simp only [List.head?_cons, Option.some.injEq] at h
      rw [← h]
      exact List.mem_cons_self b t
  exact List.mem_reverse.mp this

lemma takeWhile_dropWhile_append (p : Char → Bool) :
    ∀ (l₁ l₂ : List Char), (∀ c ∈ l₁, p c = true) →
      (∀ d, l₂.head? = some d → p d = false) →
      (l₁ ++ l₂).takeWhile p = l₁ ∧ (l₁ ++ l₂).dropWhile p = l₂ := by
  intro l₁
  induction l₁ with
  | nil =>
    intro l₂ _ h2
    cases l₂ with
    | nil => simp
    | cons d t =>
      have hd : p d = false := h2 d rfl
      simp [List.takeWhile_cons, List.dropWhile_cons, hd]
  | cons c l₁ ih =>
    intro l₂ h1 h2
    have hc : p c = true := h1 c (List.mem_cons_self c l₁)
    have hrest := ih l₂ (fun x hx => h1 x (List.mem_cons_of_mem c hx)) h2
    simp [List.takeWhile_cons, List.dropWhile_cons, hc, hrest.1, hrest.2]

lemma dropWhile_append_of_mem_false (p : Char → Bool) :
    ∀ (l₁ l₂ : List Char) (x : Char), x ∈ l₁ → p x = false →
      (l₁ ++ l₂).dropWhile p = l₁.dropWhile p ++ l₂ := by
  intro l₁
  induction l₁ with
  | nil => intro l₂ x hx; cases hx
  | cons c t ih =>
    intro l₂ x hx hpx
    by_cases hc : p c = true
    · have hxt : x ∈ t := by
        rcases List.mem_cons.mp hx with h | h
        · exact absurd (h ▸ hpx) (by simp [hc])
        · exact h
      simp only [List.cons_append, List.dropWhile_cons, if_pos hc]
      exact ih l₂ x hxt hpx
    · simp [List.dropWhile_cons, hc]

/-- Every run produced by `maxRuns` is a maximal `p`-run of the input. -/
lemma isMaxRun_of_mem_maxRuns (p : Char → Bool) :
    ∀ (n : Nat) (s : List Char), s.length ≤ n →
      ∀ w, w ∈ maxRuns p s → IsMaxRun p s w := by
  intro n
  induction n with
  | zero =>
    intro s hs w hw
    have : s = [] := List.length_eq_zero.mp (Nat.le_zero.mp hs)
    subst this
    rw [maxRuns_nil] at hw
    cases hw
  | succ n ih =>
    intro s hs w hw
    cases s with
    | nil => rw [maxRuns_nil] at hw; cases hw
    | cons c cs =>
      have hcs : cs.length ≤ n := Nat.le_of_succ_le_succ hs
      by_cases hp : p c = true
      · rw [maxRuns_cons, if_pos hp] at hw
        rcases List.mem_cons.mp hw with hw | hw
        · subst hw
          refine ⟨by simp, ?_, [], cs.dropWhile p, ?_, by simp, ?_⟩
          · intro x hx
            rcases List.mem_cons.mp hx with hx | hx
            · exact hx ▸ hp
            · exact List.mem_takeWhile_imp hx
          · simp [List.takeWhile_append_dropWhile]
          · exact fun d hd => head?_dropWhile_false p cs d hd
        · have hlen : (cs.dropWhile p).length ≤ n :=
            Nat.le_trans (List.Sublist.length_le (List.dropWhile_sublist p)) hcs
          obtain ⟨hw0, hwp, pre, suf, hdec, hpre, hsuf⟩ := ih (cs.dropWhile p) hlen w hw
          have hpre0 : pre ≠ [] := by
            intro hnil
            subst hnil
            obtain ⟨h, wt, hwcons⟩ := List.exists_cons_of_ne_nil hw0
            have hhead : (cs.dropWhile p).head? = some h := by
              rw [hdec, hwcons]; rfl
            have : p h = false := head?_dropWhile_false p cs h hhead
            have : p h = true := hwp h (by rw [hwcons]; exact List.mem_cons_self h wt)
            simp_all
          refine ⟨hw0, hwp, c :: (cs.takeWhile p ++ pre), suf, ?_, ?_, hsuf⟩
          · have hsplit : cs = cs.takeWhile p ++ cs.dropWhile p :=
              (List.takeWhile_append_dropWhile p cs).symm
            rw [hdec] at hsplit
            conv_lhs => rw [hsplit]
            simp [List.append_assoc]
          · intro d hd
            have h1 : (c :: (cs.takeWhile p ++ pre)).getLast? = pre.getLast? := by
              have h2 : (cs.takeWhile p ++ pre).getLast? = pre.getLast? :=
                getLast?_append_right _ _ hpre0
              calc (c :: (cs.takeWhile p ++ pre)).getLast?
                  = ([c] ++ (cs.takeWhile p ++ pre)).getLast? := rfl
                _ = (cs.takeWhile p ++ pre).getLast? :=
                    getLast?_append_right _ _ (by
                      intro hnil
                      exact hpre0 (List.append_eq_nil.mp hnil).2)
                _ = pre.getLast? := h2
            rw [h1] at hd
            exact hpre d hd
      · rw [maxRuns_cons, if_neg hp] at hw
        obtain ⟨hw0, hwp, pre, suf, hdec, hpre, hsuf⟩ := ih cs hcs w hw
        refine ⟨hw0, hwp, c :: pre, suf, by rw [hdec]; simp [List.append_assoc], ?_, hsuf⟩
        intro d hd
        cases pre with
        | nil =>
          simp only [List.getLast?_singleton, Option.some.injEq] at hd
          subst hd
          simp [hp]
        | cons q qs =>
          have : (c :: q :: qs).getLast? = (q :: qs).getLast? :=
            getLast?_append_right [c] (q :: qs) (by simp)
          rw [this] at hd
          exact hpre d hd

/-- Every maximal `p`-run of the input is produced by `maxRuns`. -/
lemma mem_maxRuns_of_isMaxRun (p : Char → Bool) :
    ∀ (n : Nat) (s : List Char), s.length ≤ n →
      ∀ w, IsMaxRun p s w → w ∈ maxRuns p s := by
  intro n
  induction n with
  | zero =>
    intro s hs w hmr
    obtain ⟨hw0, _, pre, suf, hdec, _, _⟩ := hmr
    have : s = [] := List.length_eq_zero.mp (Nat.le_zero.mp hs)
    subst this
    exact absurd ((List.append_eq_nil.mp (List.append_eq_nil.mp hdec.symm).1).2) hw0
  | succ n ih =>
    intro s hs w hmr
    obtain ⟨hw0, hwp, pre, suf, hdec, hpre, hsuf⟩ := hmr
    cases pre with
    | nil =>
      obtain ⟨h, wt, hwcons⟩ := List.exists_cons_of_ne_nil hw0
      subst hwcons
      have hph : p h = true := hwp h (List.mem_cons_self h wt)
      have hwt : ∀ c ∈ wt, p c = true :=
        fun c hc => hwp c (List.mem_cons_of_mem h hc)
      have hs' : s = h :: (wt ++ suf) := by rw [hdec]; rfl
      have htds := takeWhile_dropWhile_append p wt suf hwt hsuf
      rw [hs', maxRuns_cons, if_pos hph, htds.1]
      exact List.mem_cons_self _ _
    | cons d pre₂ =>
      have hs2 : (pre₂ ++ w ++ suf).length ≤ n := by
        have : s.length = (pre₂ ++ w ++ suf).length + 1 := by
          rw [hdec]; simp
        omega
      by_cases hpd : p d = true
      · have hpre₂0 : pre₂ ≠ [] := by
          intro hnil
          subst hnil
          have : p d = false := hpre d rfl
          simp_all
        obtain ⟨x, hx⟩ := exists_getLast?_of_ne_nil hpre₂0
        have hgl : (d :: pre₂).getLast? = pre₂.getLast? :=
          getLast?_append_right [d] pre₂ hpre₂0
        have hpx : p x = false := hpre x (by rw [hgl]; exact hx)
        have hxmem : x ∈ pre₂ := mem_of_getLast?_eq hx
        have hs' : s = d :: (pre₂ ++ (w ++ suf)) := by
          rw [hdec]; simp
        have hdw : (pre₂ ++ (w ++ suf)).dropWhile p = pre₂.dropWhile p ++ (w ++ suf) :=
          dropWhile_append_of_mem_false p pre₂ (w ++ suf) x hxmem hpx
        have hpre₃0 : pre₂.dropWhile p ≠ [] := by
          intro hnil
          exact absurd (List.dropWhile_eq_nil_iff.mp hnil x hxmem) (by simp [hpx])
        have hgl₃ : (pre₂.dropWhile p).getLast? = some x := by
          have : pre₂ = pre₂.takeWhile p ++ pre₂.dropWhile p :=
            (List.takeWhile_append_dropWhile p pre₂).symm
          rw [← hx]
          conv_rhs => rw [this]
          exact (getLast?_append_right _ _ hpre₃0).symm
        have hmr' : IsMaxRun p ((pre₂ ++ (w ++ suf)).dropWhile p) w := by
          refine ⟨hw0, hwp, pre₂.dropWhile p, suf, ?_, ?_, hsuf⟩
          · rw [hdw, List.append_assoc]
          · intro e he
            rw [hgl₃] at he
            cases he
            exact hpx
        have hlen : ((pre₂ ++ (w ++ suf)).dropWhile p).length ≤ n := by
          have h1 : ((pre₂ ++ (w ++ suf)).dropWhile p).length ≤ (pre₂ ++ (w ++ suf)).length :=
            List.Sublist.length_le (List.dropWhile_sublist p)
          have h2 : (pre₂ ++ (w ++ suf)).length = (pre₂ ++ w ++ suf).length := by simp
          omega
        have := ih _ hlen w hmr'
        rw [hs', maxRuns_cons, if_pos hpd]
        exact List.mem_cons_of_mem _ this
      · have hmr' : IsMaxRun p (pre₂ ++ w ++ suf) w := by
          refine ⟨hw0, hwp, pre₂, suf, rfl, ?_, hsuf⟩
          intro e he
          cases pre₂ with
          | nil => simp at he
          | cons q qs =>
            have : (d :: q :: qs).getLast? = (q :: qs).getLast? :=
              getLast?_append_right [d] (q :: qs) (by simp)
            exact hpre e (by rw [this]; exact he)
        have hs' : s = d :: (pre₂ ++ w ++ suf) := by rw [hdec]; rfl
        rw [hs', maxRuns_cons, if_neg hpd]
        exact ih _ hs2 w hmr'

/-- `maxRuns` contains exactly the maximal `p`-runs. -/
lemma mem_maxRuns_iff (p : Char → Bool) (s w : List Char) :
    w ∈ maxRuns p s ↔ IsMaxRun p s w :=
  ⟨isMaxRun_of_mem_maxRuns p s.length s (Nat.le_refl _) w,
   mem_maxRuns_of_isMaxRun p s.length s (Nat.le_refl _) w⟩

lemma toLower_eq (c : Char) :
    c.toLower = if c.toNat ≥ 65 ∧ c.toNat ≤ 90 then Char.ofNat (c.toNat + 32) else c := rfl

lemma toLower_idem (c : Char) : c.toLower.toLower = c.toLower := by
  by_cases h : c.toNat ≥ 65 ∧ c.toNat ≤ 90
  · have h1 : c.toLower = Char.ofNat (c.toNat + 32) := by rw [toLower_eq, if_pos h]
    have hv : (c.toNat + 32).isValidChar := Or.inl (by omega)
    have ht : (Char.ofNat (c.toNat + 32)).toNat = c.toNat + 32 := by
      unfold Char.ofNat
      rw [dif_pos hv]
      rfl
    rw [h1, toLower_eq, ht, if_neg (by omega)]
  · have h1 : c.toLower = c := by rw [toLower_eq, if_neg h]
    rw [h1, h1]

/-- Membership in `findWords` is exactly occurrence as a maximal run of
word characters. -/
lemma mem_findWords (s w : String) :
    w ∈ findWords s ↔ IsMaxRun isWordChar s.toList w.toList := by
  unfold findWords
  rw [tokensBy_eq_maxRuns]
  constructor
  · intro hw
    obtain ⟨wl, hwl, hmk⟩ := List.mem_map.mp hw
    have hlist : w.toList = wl := by rw [← hmk]; simp [String.toList]
    rw [hlist]
    exact (mem_maxRuns_iff _ _ _).mp hwl
  · intro h
    exact List.mem_map.mpr ⟨w.toList, (mem_maxRuns_iff _ _ _).mpr h, rfl⟩

lemma mem_jd_keywords (j w : String) :
    w ∈ jd_keywords j ↔
      IsMaxRun isWordChar (lowerStr j).toList w.toList ∧ 3 < w.length := by
  unfold jd_keywords
  rw [List.mem_dedup, List.mem_filter, mem_findWords]
  simp

lemma lowerStr_toList (s : String) : (lowerStr s).toList = s.toList.map Char.toLower := rfl

example : findWords ("i am a go developer with sql skills") =
    ["i", "am", "a", "go", "developer", "with", "sql", "skills"] := by decide

example : jd_keywords ("I am a Go developer with SQL skills") =
    ["developer", "with", "skills"] := by decide

example : keyword_coverage ("I am a Go developer with SQL skills")
    ("Experienced developer skilled in SQL and Go") =
    (["developer"], ["with", "skills"]) := by decide

/-!
PDF text extraction (lines 31-41) and its caller (lines 177-183).

`pdfplumber.open` together with the per-page `extract_text` calls is the
external parser; its observable behaviour at this boundary is either an
exception (any `Exception` caught by the `try`/`except`) or a list of
pages, each yielding either no text (`None`) or a text string.
-/

/-- Outcome of the underlying PDF parse: either the library raises, or it
yields a list of pages whose `extract_text()` is `None` or a string. -/
inductive PdfDoc where
  | parse_error : PdfDoc
  | pages : List (Option String) → PdfDoc

/-- Python `str.strip()`: remove leading and trailing whitespace. -/
def pyStrip (s : String) : String :=
  String.mk (((s.toList.dropWhile Char.isWhitespace).reverse.dropWhile
    Char.isWhitespace).reverse)

/-- Lines 33-38, the page loop of `extract_pdf_text`: starting from the
empty string, append each page's text followed by a newline whenever the
page yields truthy (non-`None`, nonempty) text. -/
def pages_text (ps : List (Option String)) : String :=
  ps.foldl
    (fun acc pt =>
      match pt with
      | none => acc
      | some t => if t.isEmpty then acc else acc ++ t ++ ("\n")) ("")

/-- Lines 31-41, `extract_pdf_text`: concatenate the text of each page
that yields text, each followed by a newline, strip the result; on a
parser exception return `None`. -/
def extract_pdf_text : PdfDoc → Option String
  | .parse_error => none
  | .pages ps => some (pyStrip (pages_text ps))

/-- Lines 180-183 of the caller: `resume_text = extract_pdf_text(...)`
followed by `if not resume_text: st.error(...); st.stop()`.  A falsy
result (`None` or the empty string) stops the session, modelled as
`none`; otherwise processing continues with the extracted text. -/
def resume_text_after_gate (p : PdfDoc) : Option String :=
  match extract_pdf_text p with
  | none => none
  | some t => if t.isEmpty then none else some t

/-!
Prompt templates (lines 45-127) and the model gateway (lines 131-154).

A `PromptTemplate` is modelled as its parse: the alternation of literal
text and named placeholders.  Rendering substitutes each placeholder with
the value bound to its name in the invocation mapping, exactly as
`str.format` does (a placeholder occurring in a substituted value is not
re-substituted).  The remote model call is opaque; the gateway's
observable behaviour is either "the rendered prompt was sent" or "a
sentinel string was returned without any call".
-/

/-- One segment of a parsed template: literal text or a named placeholder. -/
inductive Piece where
  | lit : String → Piece
  | hole : String → Piece

/-- A prompt template: its declared input variables and parsed body. -/
structure PromptTemplate where
  input_variables : List String
  template : List Piece

/-- Value bound to variable `v` in an invocation mapping. -/
def lookupVar (env : List (String × String)) (v : String) : String :=
  match env.find? (fun kv => kv.fst = v) with
  | some kv => kv.snd
  | none => ""

/-- Render a template under an invocation mapping. -/
def renderTemplate (t : PromptTemplate) (env : List (String × String)) : String :=
  List.foldr
    (fun pc acc =>
      (match pc with
       | Piece.lit s => s
       | Piece.hole v => lookupVar env v) ++ acc)
    ("") t.template

/-- Lines 45-58. -/
def review_prompt : PromptTemplate where
  input_variables := ["job_desc", "resume_text"]
  template :=
    [Piece.lit ("\n    You are an experienced HR Manager. \n    Review the following resume against the job description. \n    Highlight strengths and weaknesses clearly.\n\n    Job Description:\n    "),
     Piece.hole ("job_desc"),
     Piece.lit ("\n\n    Resume:\n    "),
     Piece.hole ("resume_text"),
     Piece.lit ("\n    ")]

/-- Lines 60-73. -/
def optimize_prompt : PromptTemplate where
  input_variables := ["job_desc", "resume_text"]
  template :=
    [Piece.lit ("\n    You are a career coach. \n    Suggest concrete improvements to the resume so that it better matches the job description. \n    Provide actionable bullet points.\n\n    Job Description:\n    "),
     Piece.hole ("job_desc"),
     Piece.lit ("\n\n    Resume:\n    "),
     Piece.hole ("resume_text"),
     Piece.lit ("\n    ")]

/-- Lines 75-88. -/
def score_prompt : PromptTemplate where
  input_variables := ["job_desc", "resume_text"]
  template :=
    [Piece.lit ("\n    You are an ATS (Applicant Tracking System). \n    Score the resume on a scale of 1-100 against the job description. \n    Also provide reasoning.\n\n    Job Description:\n    "),
     Piece.hole ("job_desc"),
     Piece.lit ("\n\n    Resume:\n    "),
     Piece.hole ("resume_text"),
     Piece.lit ("\n    ")]

/-- Lines 90-103. -/
def fit_prompt : PromptTemplate where
  input_variables := ["job_desc", "resume_text"]
  template :=
    [Piece.lit ("\n    You are a career advisor. \n    Calculate the overall Job Fit Score (0-100) based on skills, experience, and job alignment.\n    Also explain why.\n\n    Job Description:\n    "),
     Piece.hole ("job_desc"),
     Piece.lit ("\n\n    Resume:\n    "),
     Piece.hole ("resume_text"),
     Piece.lit ("\n    ")]

/-- Lines 105-116. -/
def design_prompt : PromptTemplate where
  input_variables := ["resume_text"]
  template :=
    [Piece.lit ("\n    You are a professional resume designer. \n    Suggest 3 modern ATS-friendly resume template styles and formatting tips \n    (fonts, layout, sections, keywords). \n    Keep suggestions concise and practical.\n\n    Resume:\n    "),
     Piece.hole ("resume_text"),
     Piece.lit ("\n    ")]

/-- Lines 118-127. -/
def translate_prompt : PromptTemplate where
  input_variables := ["resume_text", "language"]
  template :=
    [Piece.lit ("\n    Translate or rewrite this resume into "),
     Piece.hole ("language"),
     Piece.lit (", \n    ensuring it remains professional and ATS-friendly.\n\n    Resume:\n    "),
     Piece.hole ("resume_text"),
     Piece.lit ("\n    ")]

/-- Observable outcome of the gateway: either a prompt was rendered and
sent to the remote model, or a sentinel string was returned locally. -/
inductive ModelResult where
  | invoked : String → ModelResult
  | sentinel : String → ModelResult
deriving DecidableEq

/-- Python `str(...)` applied to the optional `extra` argument, as
`str.format` does when interpolating it: `None` renders as `"None"`. -/
def pyStrOpt : Option String → String
  | some s => s
  | none => "None"

/-- Lines 131-154, `get_model_response(job_desc, resume_text, mode,
extra=None)`: dispatch on `mode`; the translate branch substitutes
`resume_text` and `language` (from `extra`), the other recognized
branches substitute `job_desc` and `resume_text`; any other mode returns
the sentinel without touching the model. -/
def get_model_response (job_desc resume_text mode : String)
    (extra : Option String) : ModelResult :=
  if mode = "review" then
    ModelResult.invoked (renderTemplate review_prompt
      [("job_desc", job_desc), ("resume_text", resume_text)])
  else if mode = "optimize" then
    ModelResult.invoked (renderTemplate optimize_prompt
      [("job_desc", job_desc), ("resume_text", resume_text)])
  else if mode = "score" then
    ModelResult.invoked (renderTemplate score_prompt
      [("job_desc", job_desc), ("resume_text", resume_text)])
  else if mode = "fit" then
    ModelResult.invoked (renderTemplate fit_prompt
      [("job_desc", job_desc), ("resume_text", resume_text)])
  else if mode = "design" then
    ModelResult.invoked (renderTemplate design_prompt
      [("job_desc", job_desc), ("resume_text", resume_text)])
  else if mode = "translate" then
    ModelResult.invoked (renderTemplate translate_prompt
      [("resume_text", resume_text), ("language", pyStrOpt extra)])
  else
    ModelResult.sentinel ("Invalid mode selected!")

/-!
Claim theorems.
-/

/-- C1: for every job-description string and resume string, the pair
`(matched, missing)` returned by `keyword_coverage` partitions the
deduplicated keyword set exactly: every keyword lies in exactly one of the
two sequences, their union as sets is the keyword set, and their
intersection is empty. -/
theorem keyword_coverage_partition (j r : String) :
    (∀ k ∈ jd_keywords j,
       (k ∈ (keyword_coverage j r).1 ∧ k ∉ (keyword_coverage j r).2) ∨
       (k ∈ (keyword_coverage j r).2 ∧ k ∉ (keyword_coverage j r).1)) ∧
    (∀ k, (k ∈ (keyword_coverage j r).1 ∨ k ∈ (keyword_coverage j r).2) ↔
       k ∈ jd_keywords j) ∧
    (∀ k, ¬(k ∈ (keyword_coverage j r).1 ∧ k ∈ (keyword_coverage j r).2)) := by
  have h1 : ∀ k, k ∈ (keyword_coverage j r).1 ↔
      k ∈ jd_keywords j ∧ k ∈ resume_words r := by
    intro k
    simp [keyword_coverage, List.mem_filter]
  have h2 : ∀ k, k ∈ (keyword_coverage j r).2 ↔
      k ∈ jd_keywords j ∧ k ∉ resume_words r := by
    intro k
    simp [keyword_coverage, List.mem_filter]
  refine ⟨?_, ?_, ?_⟩
  · intro k hk
    by_cases hr : k ∈ resume_words r
    · exact Or.inl ⟨(h1 k).mpr ⟨hk, hr⟩, fun hc => ((h2 k).mp hc).2 hr⟩
    · exact Or.inr ⟨(h2 k).mpr ⟨hk, hr⟩, fun hc => hr ((h1 k).mp hc).2⟩
  · intro k
    constructor
    · rintro (hc | hc)
      · exact ((h1 k).mp hc).1
      · exact ((h2 k).mp hc).1
    · intro hk
      by_cases hr : k ∈ resume_words r
      · exact Or.inl ((h1 k).mpr ⟨hk, hr⟩)
      · exact Or.inr ((h2 k).mpr ⟨hk, hr⟩)
  · rintro k ⟨hc1, hc2⟩
    exact ((h2 k).mp hc2).2 ((h1 k).mp hc1).2

/-- Witness for C1 at a concrete job description, resume and keyword. -/
theorem keyword_coverage_partition_witness :
    ("developer" ∈ (keyword_coverage ("I am a Go developer with SQL skills")
        ("Experienced developer skilled in SQL and Go")).1 ∧
     "developer" ∉ (keyword_coverage ("I am a Go developer with SQL skills")
        ("Experienced developer skilled in SQL and Go")).2) ∨
    ("developer" ∈ (keyword_coverage ("I am a Go developer with SQL skills")
        ("Experienced developer skilled in SQL and Go")).2 ∧
     "developer" ∉ (keyword_coverage ("I am a Go developer with SQL skills")
        ("Experienced developer skilled in SQL and Go")).1) :=
  (keyword_coverage_partition ("I am a Go developer with SQL skills")
    ("Experienced developer skilled in SQL and Go")).1 ("developer") (by decide)

/-- C2: the keyword set consists exactly of the maximal runs of word
characters of the lowercased job description that are longer than 3
characters, with duplicates removed; hence every element is lowercase,
longer than 3 characters, and occurs at most once. -/
theorem jd_keywords_spec (j : String) :
    (∀ w : String, w ∈ jd_keywords j ↔
        IsMaxRun isWordChar (lowerStr j).toList w.toList ∧ 3 < w.length) ∧
    (jd_keywords j).Nodup ∧
    (∀ w ∈ jd_keywords j, (∀ c ∈ w.toList, c.toLower = c) ∧ 3 < w.length) := by
  refine ⟨fun w => mem_jd_keywords j w, List.nodup_dedup _, ?_⟩
  intro w hw
  obtain ⟨hmr, hlen⟩ := (mem_jd_keywords j w).mp hw
  refine ⟨?_, hlen⟩
  intro c hc
  obtain ⟨_, _, pre, suf, hdec, _, _⟩ := hmr
  have hc2 : c ∈ pre ++ w.toList ++ suf := by
    simp only [List.mem_append]
    exact Or.inl (Or.inr hc)
  have hcs : c ∈ (lowerStr j).toList := by
    rw [hdec]
    exact hc2
  rw [lowerStr_toList] at hcs
  obtain ⟨d, _, hd⟩ := List.mem_map.mp hcs
  rw [← hd]
  exact toLower_idem d

/-- Witness for C2 at a concrete job description and keyword. -/
theorem jd_keywords_spec_witness :
    (∀ c ∈ ("developer").toList, c.toLower = c) ∧ 3 < ("developer").length :=
  (jd_keywords_spec ("I am a Go developer with SQL skills")).2.2
    ("developer") (by decide)

/-- C4 as stated is false: "sql" has length 3, the filter keeps only
tokens of length strictly greater than 3, so "sql" is in neither the
keyword set nor the matched sequence of the spec's worked example. -/
theorem keyword_example_counterexample :
    "sql" ∉ jd_keywords ("I am a Go developer with SQL skills") ∧
    "sql" ∉ (keyword_coverage ("I am a Go developer with SQL skills")
      ("Experienced developer skilled in SQL and Go")).1 := by decide

/-- C4 amended: on the spec's worked example the keyword set excludes
"i", "am", "a", "go" and "sql" (all of length at most 3) and consists of
"developer", "with", "skills"; matched is exactly ["developer"] and
missing exactly ["with", "skills"]. -/
theorem keyword_example_amended :
    "i" ∉ jd_keywords ("I am a Go developer with SQL skills") ∧
    "am" ∉ jd_keywords ("I am a Go developer with SQL skills") ∧
    "a" ∉ jd_keywords ("I am a Go developer with SQL skills") ∧
    "go" ∉ jd_keywords ("I am a Go developer with SQL skills") ∧
    "sql" ∉ jd_keywords ("I am a Go developer with SQL skills") ∧
    jd_keywords ("I am a Go developer with SQL skills") =
      ["developer", "with", "skills"] ∧
    keyword_coverage ("I am a Go developer with SQL skills")
      ("Experienced developer skilled in SQL and Go") =
      (["developer"], ["with", "skills"]) := by decide

/-- C5: the empty job description yields two empty sequences for every
resume string. -/
theorem keyword_coverage_empty_jd (r : String) :
    keyword_coverage ("") r = ([], []) := rfl

/-- C6: matched and missing are the order-preserving filters of the
deduplicated keyword list by membership (resp. non-membership) in the
resume's whitespace-split lowercased token list; in particular each is a
subsequence of the deduplicated keyword list. -/
theorem keyword_coverage_order (j r : String) :
    (keyword_coverage j r).1 =
      (jd_keywords j).filter (fun kw => decide (kw ∈ resume_words r)) ∧
    (keyword_coverage j r).2 =
      (jd_keywords j).filter (fun kw => decide (kw ∉ resume_words r)) ∧
    (keyword_coverage j r).1.Sublist (jd_keywords j) ∧
    (keyword_coverage j r).2.Sublist (jd_keywords j) :=
  ⟨rfl, rfl, List.filter_sublist _, List.filter_sublist _⟩

/-- C10: the combined contents of matched and missing form the same
multiset whatever the resume text is: the resume only repartitions the
keyword set. -/
theorem keyword_coverage_resume_independent (j r1 r2 : String) :
    (((keyword_coverage j r1).1 ++ (keyword_coverage j r1).2 : List String) :
        Multiset String) =
      (((keyword_coverage j r2).1 ++ (keyword_coverage j r2).2 : List String) :
        Multiset String) := by
  have key : ∀ r : String,
      ((keyword_coverage j r).1 ++ (keyword_coverage j r).2).Perm
        (jd_keywords j) := by
    intro r
    have hneg : (fun kw => decide (kw ∉ resume_words r)) =
        (fun kw => !decide (kw ∈ resume_words r)) := by
      funext kw
      exact decide_not
    show ((jd_keywords j).filter (fun kw => decide (kw ∈ resume_words r)) ++
        (jd_keywords j).filter (fun kw => decide (kw ∉ resume_words r))).Perm
        (jd_keywords j)
    rw [hneg]
    exact List.filter_append_perm _ _
  exact Multiset.coe_eq_coe.mpr ((key r1).trans (key r2).symm)

lemma pages_text_empty :
    ∀ (ps : List (Option String)), (∀ o ∈ ps, o.getD ("") = "") →
      pages_text ps = "" := by
  have step : ∀ (ps : List (Option String)) (acc : String),
      (∀ o ∈ ps, o.getD ("") = "") →
      ps.foldl
        (fun acc pt =>
          match pt with
          | none => acc
          | some t => if t.isEmpty then acc else acc ++ t ++ ("\n")) acc = acc := by
    intro ps
    induction ps with
    | nil => intro acc _; rfl
    | cons o rest ih =>
      intro acc h
      have hrest := fun x hx => h x (List.mem_cons_of_mem o hx)
      cases o with
      | none => exact ih acc hrest
      | some t =>
        have ht : t = "" := h (some t) (List.mem_cons_self _ _)
        subst ht
        exact ih acc hrest
  intro ps h
  exact step ps ("") h

/-- C3: extraction reports a failure signal whenever the underlying parse
raises or yields no extractable text: a parse error stops the session, a
PDF none of whose pages yields text stops the session, and an empty
string is never handed to the processing code as a success. -/
theorem extraction_failure_signal :
    resume_text_after_gate PdfDoc.parse_error = none ∧
    (∀ ps : List (Option String), (∀ o ∈ ps, o.getD ("") = "") →
       resume_text_after_gate (PdfDoc.pages ps) = none) ∧
    (∀ p : PdfDoc, resume_text_after_gate p ≠ some ("")) := by
  refine ⟨rfl, ?_, ?_⟩
  · intro ps h
    unfold resume_text_after_gate
    have he : extract_pdf_text (PdfDoc.pages ps) = some (pyStrip (pages_text ps)) := rfl
    rw [he, pages_text_empty ps h]
    rfl
  · intro p
    cases p with
    | parse_error => exact fun hc => Option.noConfusion hc
    | pages ps =>
      unfold resume_text_after_gate
      have he : extract_pdf_text (PdfDoc.pages ps) = some (pyStrip (pages_text ps)) := rfl
      rw [he]
      show (if (pyStrip (pages_text ps)).isEmpty = true then none
        else some (pyStrip (pages_text ps))) ≠ some ("")
      by_cases h : (pyStrip (pages_text ps)).isEmpty = true
      · rw [if_pos h]
        exact fun hc => Option.noConfusion hc
      · rw [if_neg h]
        intro hc
        simp only [Option.some.injEq] at hc
        exact h ((String.isEmpty_iff _).mpr hc)

/-- Witness for C3: a two-page scanned PDF (one page yields no text, one
yields the empty string) stops the session with the failure signal. -/
theorem extraction_failure_signal_witness :
    resume_text_after_gate (PdfDoc.pages [none, some ("")]) = none :=
  extraction_failure_signal.2.1 [none, some ("")] (by decide)

/-- Predicate on parse outcomes: the underlying PDF parse raised an
exception. -/
def parse_raised : PdfDoc → Bool
  | .parse_error => true
  | .pages _ => false

/-- C7: whenever the underlying parse raises, `extract_pdf_text` returns
the failure signal `None` instead of propagating the exception. -/
theorem extract_pdf_text_on_exception (p : PdfDoc) (h : parse_raised p = true) :
    extract_pdf_text p = none := by
  cases p with
  | parse_error => rfl
  | pages ps => simp [parse_raised] at h

/-- Witness for C7 at the raising parse outcome. -/
theorem extract_pdf_text_on_exception_witness :
    extract_pdf_text PdfDoc.parse_error = none :=
  extract_pdf_text_on_exception PdfDoc.parse_error (by decide)

/-- C8: every mode outside the six recognized ones returns the fixed
sentinel string, for all arguments, without invoking the model. -/
theorem get_model_response_invalid_mode (j r m : String) (e : Option String)
    (h : m ∉ (["review", "optimize", "score", "fit", "design", "translate"] :
      List String)) :
    get_model_response j r m e = ModelResult.sentinel ("Invalid mode selected!") := by
  simp only [List.mem_cons, List.not_mem_nil, or_false, not_or] at h
  obtain ⟨h1, h2, h3, h4, h5, h6⟩ := h
  simp [get_model_response, h1, h2, h3, h4, h5, h6]

/-- Witness for C8 at a concrete unrecognized mode. -/
theorem get_model_response_invalid_mode_witness :
    get_model_response ("jd") ("resume") ("banana") none =
      ModelResult.sentinel ("Invalid mode selected!") :=
  get_model_response_invalid_mode ("jd") ("resume") ("banana") none (by decide)

/-- C9: the translate branch renders the template with the `language`
placeholder replaced by the extra argument and the `resume_text`
placeholder replaced by the resume, and its result does not depend on the
job description; the design branch substitutes the resume only and is
also independent of the job description; the review, optimize, score and
fit branches substitute both the job description and the resume. -/
theorem get_model_response_substitution (j j1 j2 r l : String) (e : Option String) :
    get_model_response j r ("translate") (some l) =
      ModelResult.invoked
        (("\n    Translate or rewrite this resume into ") ++ (l ++
          ((", \n    ensuring it remains professional and ATS-friendly.\n\n    Resume:\n    ") ++
            (r ++ ("\n    "))))) ∧
    get_model_response j1 r ("translate") e = get_model_response j2 r ("translate") e ∧
    get_model_response j r ("design") e =
      ModelResult.invoked
        (("\n    You are a professional resume designer. \n    Suggest 3 modern ATS-friendly resume template styles and formatting tips \n    (fonts, layout, sections, keywords). \n    Keep suggestions concise and practical.\n\n    Resume:\n    ") ++
          (r ++ ("\n    "))) ∧
    get_model_response j1 r ("design") e = get_model_response j2 r ("design") e ∧
    get_model_response j r ("review") e =
      ModelResult.invoked
        (("\n    You are an experienced HR Manager. \n    Review the following resume against the job description. \n    Highlight strengths and weaknesses clearly.\n\n    Job Description:\n    ") ++
          (j ++ (("\n\n    Resume:\n    ") ++ (r ++ ("\n    "))))) ∧
    get_model_response j r ("optimize") e =
      ModelResult.invoked
        (("\n    You are a career coach. \n    Suggest concrete improvements to the resume so that it better matches the job description. \n    Provide actionable bullet points.\n\n    Job Description:\n    ") ++
          (j ++ (("\n\n    Resume:\n    ") ++ (r ++ ("\n    "))))) ∧
    get_model_response j r ("score") e =
      ModelResult.invoked
        (("\n    You are an ATS (Applicant Tracking System). \n    Score the resume on a scale of 1-100 against the job description. \n    Also provide reasoning.\n\n    Job Description:\n    ") ++
          (j ++ (("\n\n    Resume:\n    ") ++ (r ++ ("\n    "))))) ∧
    get_model_response j r ("fit") e =
      ModelResult.invoked
        (("\n    You are a career advisor. \n    Calculate the overall Job Fit Score (0-100) based on skills, experience, and job alignment.\n    Also explain why.\n\n    Job Description:\n    ") ++
          (j ++ (("\n\n    Resume:\n    ") ++ (r ++ ("\n    "))))) :=
  ⟨rfl, rfl, rfl, rfl, rfl, rfl, rfl, rfl⟩
